import Mathlib

/-!
Verification of the TSE querier (src/querier.c) against its specification.

We give a shallow embedding of the query-evaluation core:
tokenize_and_validate / validate_tokens / is_operator,
evaluate_query / evaluate_andsequence with the counters helpers
(copy_helper, zero_helper, intersect_helper, union_helper), and the
ranking stage (count_nonzero, collect_nonzero, cmp_docscore_desc, qsort).

The counters module is an external collaborator (libcs50, not part of the
querier source); it is modelled by its interface as a sparse association
list from document id to count: counters_get of a missing key is 0,
counters_set updates an existing key in place or appends a new one, and
counters_iterate visits each stored entry once, in list order.

qsort is modelled as a stable comparator-based sort (List.mergeSort with
the predicate "cmp_docscore_desc a b ≤ 0"); the C standard leaves the
relative order of comparator-equal elements unspecified, and the glibc
implementation is a merge sort.  No theorem below about order relies on
more than comparator-consistency except the C3 counterexample, which
exhibits that the comparator itself never consults document ids.
-/

namespace Querier

/-- A word (token) is a list of characters, as read from the query line. -/
abbrev Word := List Char

/-- counters_t: sparse docID → count mapping, modelled as an association
list (iteration order is the list order). -/
abbrev Counters := List (Int × Int)

/-- The in-memory index: term → postings (counters), an external
read-only collaborator consulted through index_find. -/
abbrev Index := List (Word × Counters)

/-- counters_get: the count for a key, 0 when the key is absent. -/
def cget (c : Counters) (k : Int) : Int :=
  match c.find? (fun p => decide (p.1 = k)) with
  | some p => p.2
  | none => 0

/-- counters_set: update the entry for k in place when present,
otherwise add a new entry. -/
def cset (c : Counters) (k v : Int) : Counters :=
  if c.any (fun p => decide (p.1 = k)) then
    c.map (fun p => if p.1 = k then (k, v) else p)
  else
    c ++ [(k, v)]

/-- The keys currently stored in a counters. -/
def keysOf (c : Counters) : List Int := c.map Prod.fst

/-- A counters is well-formed when its stored keys are distinct; every
counters the querier builds satisfies this. -/
def NodupKeys (c : Counters) : Prop := (keysOf c).Nodup

/-- index_find: look a word up in the index; none models a NULL return. -/
def index_find (idx : Index) (w : Word) : Option Counters :=
  (idx.find? (fun p => decide (p.1 = w))).map Prod.snd

/-- copy_helper folded over the source: copy every (key, count) of src
into a fresh counters. -/
def copyC (src : Counters) : Counters :=
  src.foldl (fun d p => cset d p.1 p.2) []

/-- intersect_helper folded over dest: every key of dest gets
min(dest count, src count), a key absent from src counting as 0
(counters_set on a key being iterated updates that entry in place). -/
def counters_intersect (dest src : Counters) : Counters :=
  dest.map (fun p => (p.1, min p.2 (cget src p.1)))

/-- zero_helper folded over dest: every stored count becomes 0. -/
def zeroC (dest : Counters) : Counters :=
  dest.map (fun p => (p.1, 0))

/-- union_helper folded over src: dest[key] becomes dest[key] + src[key]
for every key of src. -/
def counters_union (dest src : Counters) : Counters :=
  src.foldl (fun d p => cset d p.1 (cget d p.1 + p.2)) dest

/-- The token "and". -/
def wAnd : Word := ['a', 'n', 'd']

/-- The token "or". -/
def wOr : Word := ['o', 'r']

/-- is_operator: a word is exactly "and" or "or". -/
def is_operator (w : Word) : Bool :=
  decide (w = wAnd) || decide (w = wOr)

/-- The accumulator seeded from the first real word of an andsequence:
a copy of the word's postings, or a fresh empty counters when the word
is absent from the index. -/
def firstTermInit (idx : Index) (w : Word) : Counters :=
  match index_find idx w with
  | none => []
  | some c => copyC c

/-- The accumulator update for a subsequent word of an andsequence:
zero every tracked document when the word is absent from the index,
otherwise intersect (per-document minimum with the word's postings). -/
def andTermStep (idx : Index) (w : Word) (r : Counters) : Counters :=
  match index_find idx w with
  | none => zeroC r
  | some c => counters_intersect r c

/-- evaluate_andsequence: process words until "or" or the end, keeping an
accumulator (none models the NULL result before the first real word).
Returns the group's counters and the remaining suffix of words (the
position end_out points at). -/
def evaluate_andsequence (idx : Index) :
    List Word → Option Counters → Counters × List Word
  | [], acc => (acc.getD [], [])
  | w :: rest, acc =>
    if w = wOr then (acc.getD [], w :: rest)
    else if w = wAnd then evaluate_andsequence idx rest acc
    else
      let acc' : Counters :=
        match acc with
        | none => firstTermInit idx w
        | some r => andTermStep idx w r
      evaluate_andsequence idx rest (some acc')

/-- Skip a leading "or" token, as evaluate_query does after each group. -/
def dropOr : List Word → List Word
  | [] => []
  | w :: rest => if w = wOr then rest else w :: rest

/-- The while loop of evaluate_query: acc is orResult (none while
haveOrResult is false). Each andsequence result seeds or is unioned in,
then a separating "or" token is skipped. -/
def evalQueryGo (idx : Index) (ws : List Word) (acc : Option Counters) :
    Counters :=
  match ws with
  | [] => acc.getD []
  | w :: rest =>
    let step := evaluate_andsequence idx (w :: rest) none
    let acc' : Counters :=
      match acc with
      | none => step.1
      | some a => counters_union a step.1
    evalQueryGo idx (dropOr step.2) (some acc')
termination_by ws.length
decreasing_by
  have key : ∀ (l : List Word) (a : Option Counters),
      (evaluate_andsequence idx l a).2.length ≤ l.length := by
    intro l
    induction l with
    | nil => intro _; simp [evaluate_andsequence]
    | cons x t ih =>
      intro a
      by_cases hor : x = wOr
      · simp [evaluate_andsequence, hor]
      · by_cases hand : x = wAnd
        · simp only [evaluate_andsequence, if_neg hor, if_pos hand]
          exact Nat.le_succ_of_le (ih a)
        · simp only [evaluate_andsequence, if_neg hor, if_neg hand]
          exact Nat.le_succ_of_le (ih _)
  have hdrop : ∀ l : List Word, (dropOr l).length ≤ l.length := by
    intro l
    cases l with
    | nil => simp [dropOr]
    | cons x t =>
      by_cases h : x = wOr
      · simp [dropOr, h]
      · simp [dropOr, h]
  by_cases hor : w = wOr
  · simp [evaluate_andsequence, hor, dropOr]
  · by_cases hand : w = wAnd
    · simp only [evaluate_andsequence, if_neg hor, if_pos hand]
      have h1 := key rest none
      have h2 := hdrop (evaluate_andsequence idx rest none).2
      simp only [List.length_cons]
      omega
    · simp only [evaluate_andsequence, if_neg hor, if_neg hand]
      have h1 := key rest (some (firstTermInit idx w))
      have h2 := hdrop (evaluate_andsequence idx rest (some (firstTermInit idx w))).2
      simp only [List.length_cons]
      omega

/-- evaluate_query: NULL index or NULL words gives a fresh empty
counters; otherwise run the or-loop over the word list. -/
def evaluate_query (idx : Option Index) (words : Option (List Word)) :
    Counters :=
  match idx, words with
  | some i, some ws => evalQueryGo i ws none
  | _, _ => []

/-- C isalpha in the C locale: ASCII letters only. -/
def isAlphaC (c : Char) : Bool :=
  (decide ('a' ≤ c) && decide (c ≤ 'z')) || (decide ('A' ≤ c) && decide (c ≤ 'Z'))

/-- C isspace in the C locale: space, tab, newline, vertical tab,
form feed, carriage return. -/
def isSpaceC (c : Char) : Bool :=
  decide (c = ' ') || decide (c = '\t') || decide (c = '\n')
    || decide (c = '\x0b') || decide (c = '\x0c') || decide (c = '\r')

/-- C tolower in the C locale: shift ASCII uppercase to lowercase. -/
def lowerC (c : Char) : Char :=
  if 'A' ≤ c ∧ c ≤ 'Z' then Char.ofNat (c.toNat + 32) else c

/-- The first pass of tokenize_and_validate: lowercase alphabetic
characters, leave the rest unchanged. -/
def lowerLine (line : List Char) : List Char :=
  line.map (fun c => if isAlphaC c then lowerC c else c)

/-- The segmentation loop of tokenize_and_validate: skip non-letters,
then consume a maximal run of letters as one word, and repeat. -/
def tokenizeRuns : List Char → List Word
  | [] => []
  | c :: rest =>
    if isAlphaC c then
      (c :: rest.takeWhile isAlphaC) :: tokenizeRuns (rest.dropWhile isAlphaC)
    else
      tokenizeRuns rest
termination_by l => l.length
decreasing_by
  · have h1 : (rest.dropWhile isAlphaC).length ≤ rest.length :=
      (List.dropWhile_sublist isAlphaC).length_le
    simp only [List.length_cons]
    omega
  · simp

/-- The tokenization stage: reject the whole line if any character is
neither alphabetic nor whitespace, otherwise lowercase and segment. -/
def tokenizeLine (line : List Char) : Option (List Word) :=
  if line.any (fun c => !isAlphaC c && !isSpaceC c) then none
  else some (tokenizeRuns (lowerLine line))

/-- The last token of a word list (never called on an empty list by
validate_tokens; total here with a default). -/
def lastTok : List Word → Word
  | [] => []
  | [w] => w
  | _ :: w :: rest => lastTok (w :: rest)

/-- The adjacency loop of validate_tokens: two consecutive operators. -/
def hasAdjOps : List Word → Bool
  | a :: b :: rest => (is_operator a && is_operator b) || hasAdjOps (b :: rest)
  | _ => false

/-- validate_tokens: a blank line is allowed; otherwise the first and
last tokens must not be operators and no two operators may be adjacent. -/
def validate_tokens (words : List Word) : Bool :=
  match words with
  | [] => true
  | w :: rest =>
    if is_operator w then false
    else if is_operator (lastTok (w :: rest)) then false
    else !hasAdjOps (w :: rest)

/-- tokenize_and_validate: tokenize the line, then check the grammar;
none models a false return (the query is rejected). -/
def tokenize_and_validate (line : List Char) : Option (List Word) :=
  match tokenizeLine line with
  | none => none
  | some ws => if validate_tokens ws then some ws else none

/-- count_nonzero folded over the results: how many entries have a
strictly positive count. -/
def count_nonzero (results : Counters) : Nat :=
  (results.filter (fun p => decide (0 < p.2))).length

/-- collect_nonzero folded over the results: the strictly positive
entries, in iteration order. -/
def collect_nonzero (results : Counters) : List (Int × Int) :=
  results.filter (fun p => decide (0 < p.2))

/-- cmp_docscore_desc: the qsort comparator; negative when a sorts
before b.  It compares scores only. -/
def cmp_docscore_desc (a b : Int × Int) : Int := b.2 - a.2

/-- The ordering qsort establishes: a may precede b when the comparator
does not require b first. -/
def qsortLe (a b : Int × Int) : Bool := decide (cmp_docscore_desc a b ≤ 0)

/-- rank_and_print without the printing: none models the
"No documents match." branch, some gives the sorted ranked entries. -/
def rank_results (results : Counters) : Option (List (Int × Int)) :=
  if count_nonzero results = 0 then none
  else some ((collect_nonzero results).mergeSort qsortLe)

/-- One iteration of query_loop after the line is read: none when the
query is rejected or blank (evaluation is not attempted), otherwise the
ScoreMap handed to rank_and_print. -/
def process_line (idx : Index) (line : List Char) : Option Counters :=
  match tokenize_and_validate line with
  | none => none
  | some [] => none
  | some ws => some (evaluate_query (some idx) (some ws))

/-- The full deterministic pipeline from a validated word sequence to
the ranked result. -/
def pipeline (idx : Index) (ws : List Word) : Option (List (Int × Int)) :=
  rank_results (evaluate_query (some idx) (some ws))

/-- The ordering claimed by the spec for ranked output: score strictly
descending, ties broken by ascending document id. -/
def scoreThenDocSorted (l : List (Int × Int)) : Prop :=
  l.Pairwise (fun a b => b.2 < a.2 ∨ (a.2 = b.2 ∧ a.1 < b.1))

/-- Specification-side description of tokenization, independent of the
code's loop: lowercase the line, split on non-alphabetic characters,
keep the non-empty pieces. -/
def tokensSpec (line : List Char) : List Word :=
  ((lowerLine line).splitOnP (fun c => !isAlphaC c)).filter (fun t => !t.isEmpty)

theorem cget_nil (k : Int) : cget [] k = 0 := rfl

theorem cget_cons (p : Int × Int) (t : Counters) (k : Int) :
    cget (p :: t) k = if p.1 = k then p.2 else cget t k := by
  by_cases h : p.1 = k
  · simp [cget, List.find?_cons, h]
  · simp [cget, List.find?_cons, h]

theorem any_key_eq_true_iff (d : Counters) (k : Int) :
    (d.any fun p => decide (p.1 = k)) = true ↔ k ∈ keysOf d := by
  simp [keysOf, List.any_eq_true, List.mem_map]

theorem keysOf_nil : keysOf [] = [] := rfl

theorem keysOf_cons (p : Int × Int) (t : Counters) :
    keysOf (p :: t) = p.1 :: keysOf t := rfl

theorem keysOf_append (t1 t2 : Counters) :
    keysOf (t1 ++ t2) = keysOf t1 ++ keysOf t2 := by
  simp [keysOf]

theorem keysOf_map_value (f : Int → Int → Int) (t : Counters) :
    keysOf (t.map fun p => (p.1, f p.1 p.2)) = keysOf t := by
  induction t with
  | nil => rfl
  | cons p t ih => simp_all [keysOf]

theorem cget_map_update_ne (t : Counters) (k v k' : Int) (h : k' ≠ k) :
    cget (t.map fun p => if p.1 = k then (k, v) else p) k' = cget t k' := by
  induction t with
  | nil => rfl
  | cons p t ih =>
    by_cases hp : p.1 = k
    · have hk : k ≠ k' := fun e => h e.symm
      simp [cget_cons, hp, hk, ih]
    · simp only [List.map_cons, if_neg hp, cget_cons, ih]

theorem cget_map_update_self (t : Counters) (k v : Int) (h : k ∈ keysOf t) :
    cget (t.map fun p => if p.1 = k then (k, v) else p) k = v := by
  induction t with
  | nil => simp [keysOf] at h
  | cons p t ih =>
    by_cases hp : p.1 = k
    · simp [cget_cons, hp]
    · have h' : k ∈ keysOf t := by
        rw [keysOf_cons] at h
        rcases List.mem_cons.mp h with h1 | h1
        · exact absurd h1.symm hp
        · exact h1
      simp [List.map_cons, if_neg hp, cget_cons, hp, ih h']

theorem cget_append_single_ne (t : Counters) (k v k' : Int) (h : k' ≠ k) :
    cget (t ++ [(k, v)]) k' = cget t k' := by
  induction t with
  | nil =>
    have hne : k ≠ k' := fun e => h e.symm
    simp [cget_cons, hne]
  | cons p t ih => simp [cget_cons, ih]

theorem cget_append_single_self (t : Counters) (k v : Int) (h : k ∉ keysOf t) :
    cget (t ++ [(k, v)]) k = v := by
  induction t with
  | nil => simp [cget_cons]
  | cons p t ih =>
    rw [keysOf_cons] at h
    have h1 : p.1 ≠ k := fun e => h (by simp [e])
    have h2 : k ∉ keysOf t := fun e => h (by simp [e])
    simp [cget_cons, h1, ih h2]

theorem cget_cset (d : Counters) (k v k' : Int) :
    cget (cset d k v) k' = if k' = k then v else cget d k' := by
  by_cases hm : k ∈ keysOf d
  · have ha : (d.any fun p => decide (p.1 = k)) = true :=
      (any_key_eq_true_iff d k).mpr hm
    rw [cset, if_pos ha]
    by_cases hk : k' = k
    · subst hk; simp [cget_map_update_self d k' v hm]
    · simp [hk, cget_map_update_ne d k v k' hk]
  · have ha : ¬ (d.any fun p => decide (p.1 = k)) = true := by
      rw [any_key_eq_true_iff]; exact hm
    rw [cset, if_neg ha]
    by_cases hk : k' = k
    · subst hk; simp [cget_append_single_self d k' v hm]
    · simp [hk, cget_append_single_ne d k v k' hk]

theorem keysOf_map_update (t : Counters) (k v : Int) :
    keysOf (t.map fun p => if p.1 = k then (k, v) else p) = keysOf t := by
  induction t with
  | nil => rfl
  | cons p t ih =>
    by_cases hp : p.1 = k
    · simp [keysOf, hp] at ih ⊢; exact ih
    · simp [keysOf, hp] at ih ⊢; exact ih

theorem keysOf_cset (d : Counters) (k v : Int) :
    keysOf (cset d k v) = if k ∈ keysOf d then keysOf d else keysOf d ++ [k] := by
  by_cases hm : k ∈ keysOf d
  · have ha : (d.any fun p => decide (p.1 = k)) = true :=
      (any_key_eq_true_iff d k).mpr hm
    rw [cset, if_pos ha, if_pos hm, keysOf_map_update]
  · have ha : ¬ (d.any fun p => decide (p.1 = k)) = true := by
      rw [any_key_eq_true_iff]; exact hm
    rw [cset, if_neg ha, if_neg hm, keysOf_append]
    rfl

theorem nodupKeys_nil : NodupKeys [] := by
  simp [NodupKeys, keysOf]

theorem nodupKeys_cset (d : Counters) (k v : Int) (h : NodupKeys d) :
    NodupKeys (cset d k v) := by
  unfold NodupKeys at *
  rw [keysOf_cset]
  by_cases hm : k ∈ keysOf d
  · rw [if_pos hm]; exact h
  · rw [if_neg hm]
    simp [List.nodup_append, h, hm]

theorem nodupKeys_foldl_cset (g : Counters → Int × Int → Int) :
    ∀ (src : Counters) (acc : Counters), NodupKeys acc →
      NodupKeys (src.foldl (fun d p => cset d p.1 (g d p)) acc) := by
  intro src
  induction src with
  | nil => intro acc h; exact h
  | cons p t ih =>
    intro acc h
    exact ih _ (nodupKeys_cset _ _ _ h)

theorem nodupKeys_copyC (src : Counters) : NodupKeys (copyC src) :=
  nodupKeys_foldl_cset (fun _ p => p.2) src [] nodupKeys_nil

theorem nodupKeys_counters_union (dest src : Counters) (h : NodupKeys dest) :
    NodupKeys (counters_union dest src) :=
  nodupKeys_foldl_cset (fun d p => cget d p.1 + p.2) src dest h

theorem keysOf_zeroC (r : Counters) : keysOf (zeroC r) = keysOf r := by
  induction r with
  | nil => rfl
  | cons p t ih => simp_all [zeroC, keysOf]

theorem keysOf_counters_intersect (r src : Counters) :
    keysOf (counters_intersect r src) = keysOf r := by
  induction r with
  | nil => rfl
  | cons p t ih => simp_all [counters_intersect, keysOf]

theorem nodupKeys_zeroC (r : Counters) (h : NodupKeys r) : NodupKeys (zeroC r) := by
  unfold NodupKeys at *
  rw [keysOf_zeroC]
  exact h

theorem nodupKeys_counters_intersect (r src : Counters) (h : NodupKeys r) :
    NodupKeys (counters_intersect r src) := by
  unfold NodupKeys at *
  rw [keysOf_counters_intersect]
  exact h

theorem nodupKeys_firstTermInit (idx : Index) (w : Word) :
    NodupKeys (firstTermInit idx w) := by
  unfold firstTermInit
  cases index_find idx w with
  | none => exact nodupKeys_nil
  | some c => exact nodupKeys_copyC c

theorem nodupKeys_andTermStep (idx : Index) (w : Word) (r : Counters)
    (h : NodupKeys r) : NodupKeys (andTermStep idx w r) := by
  unfold andTermStep
  cases index_find idx w with
  | none => exact nodupKeys_zeroC r h
  | some c => exact nodupKeys_counters_intersect r c h

theorem nodupKeys_evaluate_andsequence (idx : Index) :
    ∀ (ws : List Word) (acc : Option Counters),
      (∀ r, acc = some r → NodupKeys r) →
      NodupKeys (evaluate_andsequence idx ws acc).1 := by
  intro ws
  induction ws with
  | nil =>
    intro acc h
    cases acc with
    | none => exact nodupKeys_nil
    | some r => exact h r rfl
  | cons w rest ih =>
    intro acc h
    by_cases hor : w = wOr
    · simp only [evaluate_andsequence, if_pos hor]
      cases acc with
      | none => exact nodupKeys_nil
      | some r => exact h r rfl
    · by_cases hand : w = wAnd
      · simp only [evaluate_andsequence, if_neg hor, if_pos hand]
        exact ih acc h
      · simp only [evaluate_andsequence, if_neg hor, if_neg hand]
        apply ih
        intro r' hr'
        cases acc with
        | none =>
          simp only [Option.some.injEq] at hr'
          rw [← hr']
          exact nodupKeys_firstTermInit idx w
        | some r =>
          simp only [Option.some.injEq] at hr'
          rw [← hr']
          exact nodupKeys_andTermStep idx w r (h r rfl)

theorem cget_counters_union (dest src : Counters) (k : Int) (h : NodupKeys src) :
    cget (counters_union dest src)
        k = cget dest k + (if k ∈ keysOf src then cget src k else 0) := by
  induction src generalizing dest with
  | nil => simp [counters_union, keysOf]
  | cons p t ih =>
    obtain ⟨k0, c0⟩ := p
    have hk0 : k0 ∉ keysOf t := by
      have := h
      unfold NodupKeys at this
      rw [keysOf_cons] at this
      exact (List.nodup_cons.mp this).1
    have ht : NodupKeys t := by
      have := h
      unfold NodupKeys at this
      rw [keysOf_cons] at this
      exact (List.nodup_cons.mp this).2
    have hstep : counters_union dest ((k0, c0) :: t)
        = counters_union (cset dest k0 (cget dest k0 + c0)) t := rfl
    rw [hstep, ih _ ht]
    by_cases hk : k = k0
    · subst hk
      rw [cget_cset]
      simp [hk0, keysOf_cons, cget_cons]
    · rw [cget_cset, if_neg hk]
      have hmem : k ∈ keysOf ((k0, c0) :: t) ↔ k ∈ keysOf t := by
        rw [keysOf_cons]
        simp [hk]
      have hne : k0 ≠ k := fun e => hk e.symm
      by_cases hm : k ∈ keysOf t
      · rw [if_pos hm, if_pos (hmem.mpr hm), cget_cons, if_neg hne]
      · rw [if_neg hm, if_neg (fun e => hm (hmem.mp e))]

theorem cget_map_value (f : Int → Int → Int) (r : Counters) (k : Int)
    (h : k ∈ keysOf r) :
    cget (r.map fun p => (p.1, f p.1 p.2)) k = f k (cget r k) := by
  induction r with
  | nil => simp [keysOf] at h
  | cons p t ih =>
    by_cases hp : p.1 = k
    · subst hp
      simp [cget_cons]
    · have h' : k ∈ keysOf t := by
        rw [keysOf_cons] at h
        rcases List.mem_cons.mp h with h1 | h1
        · exact absurd h1.symm hp
        · exact h1
      simp [cget_cons, hp, ih h']

/-- C1: for every AND-group evaluated left to right, the accumulator
update for a subsequent term w is: stepping past w continues the group
with andTermStep idx w r, whose key set is that of the accumulator, and
in which every currently tracked document scores 0 when w is absent from
the index, and min(accumulator score, w's count for that document) when
w is present — a document absent from w's postings counting as 0 there. -/
theorem andsequence_step_accumulator (idx : Index) (w : Word) (r : Counters)
    (rest : List Word) (k : Int)
    (hor : w ≠ wOr) (hand : w ≠ wAnd) (hk : k ∈ keysOf r) :
    evaluate_andsequence idx (w :: rest) (some r)
        = evaluate_andsequence idx rest (some (andTermStep idx w r))
    ∧ keysOf (andTermStep idx w r) = keysOf r
    ∧ cget (andTermStep idx w r) k =
        (match index_find idx w with
         | none => 0
         | some wc => min (cget r k) (cget wc k)) := by
  refine ⟨?_, ?_, ?_⟩
  · simp only [evaluate_andsequence, if_neg hor, if_neg hand]
  · unfold andTermStep
    cases index_find idx w with
    | none => exact keysOf_zeroC r
    | some c => exact keysOf_counters_intersect r c
  · unfold andTermStep
    cases index_find idx w with
    | none => exact cget_map_value (fun _ _ => 0) r k hk
    | some c => exact cget_map_value (fun a b => min b (cget c a)) r k hk

/-- Witness for C1 at a one-word index: intersecting accumulator
(doc 1 ↦ 5) with the postings of b (doc 1 ↦ 2) gives min 5 2 = 2. -/
theorem andsequence_step_accumulator_witness :
    cget (andTermStep [(['b'], [((1 : Int), 2)])] ['b'] [((1 : Int), 5)]) 1 = 2 := by
  have h := andsequence_step_accumulator [(['b'], [((1 : Int), 2)])] ['b']
    [((1 : Int), 5)] [] 1 (by decide) (by decide) (by decide)
  rw [h.2.2]
  decide

/-- C2: OR-combination merges each subsequent AND-group result into the
running result by per-document addition (documents absent from the group
are untouched), the groups are processed strictly left to right, and the
first group's result seeds the running result. -/
theorem or_combination_union (idx : Index) (dest : Counters) (ws : List Word)
    (k : Int) (hws : ws ≠ []) :
    (k ∈ keysOf (evaluate_andsequence idx ws none).1 →
      cget (counters_union dest (evaluate_andsequence idx ws none).1) k
        = cget dest k + cget (evaluate_andsequence idx ws none).1 k)
    ∧ (k ∉ keysOf (evaluate_andsequence idx ws none).1 →
      cget (counters_union dest (evaluate_andsequence idx ws none).1) k
        = cget dest k)
    ∧ evalQueryGo idx ws none
        = evalQueryGo idx (dropOr (evaluate_andsequence idx ws none).2)
            (some (evaluate_andsequence idx ws none).1)
    ∧ evalQueryGo idx ws (some dest)
        = evalQueryGo idx (dropOr (evaluate_andsequence idx ws none).2)
            (some (counters_union dest (evaluate_andsequence idx ws none).1)) := by
  have hnd : NodupKeys (evaluate_andsequence idx ws none).1 :=
    nodupKeys_evaluate_andsequence idx ws none (by intro r h; cases h)
  have hu := cget_counters_union dest (evaluate_andsequence idx ws none).1 k hnd
  refine ⟨?_, ?_, ?_, ?_⟩
  · intro hmem
    rw [hu, if_pos hmem]
  · intro hmem
    rw [hu, if_neg hmem]
    omega
  · cases ws with
    | nil => exact absurd rfl hws
    | cons w rest => rw [evalQueryGo]
  · cases ws with
    | nil => exact absurd rfl hws
    | cons w rest => rw [evalQueryGo]

/-- Witness for C2: unioning group result (doc 1 ↦ 2) into running
result (doc 1 ↦ 3) gives 3 + 2 = 5. -/
theorem or_combination_union_witness :
    cget (counters_union [((1 : Int), 3)]
      (evaluate_andsequence [(['a'], [((1 : Int), 2)])] [['a']] none).1) 1 = 5 := by
  have h := (or_combination_union [(['a'], [((1 : Int), 2)])] [((1 : Int), 3)]
    [['a']] 1 (by decide)).1 (by decide)
  rw [h]
  decide

theorem is_operator_eq_false_iff (w : Word) :
    is_operator w = false ↔ w ≠ wAnd ∧ w ≠ wOr := by
  simp [is_operator, not_or]

/-- C7: a two-term query with implicit AND evaluates to the same
ScoreMap as the query with an explicit "and" between the terms. -/
theorem implicit_and_equiv (idx : Index) (a b : Word)
    (ha : is_operator a = false) (hb : is_operator b = false) :
    evaluate_query (some idx) (some [a, b])
      = evaluate_query (some idx) (some [a, wAnd, b]) := by
  obtain ⟨ha1, ha2⟩ := (is_operator_eq_false_iff a).mp ha
  obtain ⟨hb1, hb2⟩ := (is_operator_eq_false_iff b).mp hb
  have hao : wAnd ≠ wOr := by decide
  simp only [evaluate_query]
  rw [evalQueryGo, evalQueryGo]
  simp only [evaluate_andsequence, if_neg ha1, if_neg ha2, if_neg hb1,
    if_neg hb2, if_neg hao, if_pos rfl, dropOr]
  simp [evalQueryGo]

/-- Witness for C7 on an empty index with terms c and d. -/
theorem implicit_and_equiv_witness :
    evaluate_query (some []) (some [['c'], ['d']])
      = evaluate_query (some []) (some [['c'], wAnd, ['d']]) :=
  implicit_and_equiv [] ['c'] ['d'] (by decide) (by decide)

/-- C8: the pipeline from a validated word sequence to the ranked result
is a deterministic function of the query and the index: two evaluations
of equal queries against equal indexes give identical ranked output. -/
theorem pipeline_deterministic (idx1 idx2 : Index) (ws1 ws2 : List Word)
    (hi : idx1 = idx2) (hw : ws1 = ws2) :
    pipeline idx1 ws1 = pipeline idx2 ws2 := by
  subst hi
  subst hw
  rfl

/-- Witness for C8 at a concrete query. -/
theorem pipeline_deterministic_witness :
    pipeline [(['a'], [((1 : Int), 2)])] [['a']]
      = pipeline [(['a'], [((1 : Int), 2)])] [['a']] :=
  pipeline_deterministic [(['a'], [((1 : Int), 2)])] [(['a'], [((1 : Int), 2)])]
    [['a']] [['a']] rfl rfl

/-- C10: evaluate_query never fails: NULL index or NULL word-array
inputs give a freshly allocated empty counters, and an empty word
sequence also evaluates to an empty counters. -/
theorem evaluate_query_total (idx : Option Index)
    (words : Option (List Word)) :
    (idx = none → evaluate_query idx words = [])
    ∧ (words = none → evaluate_query idx words = [])
    ∧ (∀ i, idx = some i → words = some [] → evaluate_query idx words = []) := by
  refine ⟨?_, ?_, ?_⟩
  · intro h; subst h; cases words <;> rfl
  · intro h; subst h; cases idx <;> rfl
  · intro i hi hw
    subst hi
    subst hw
    simp [evaluate_query, evalQueryGo]

/-- Witness for C10 at concrete NULL and empty inputs. -/
theorem evaluate_query_total_witness :
    evaluate_query none (some [['a']]) = []
    ∧ evaluate_query (some []) none = []
    ∧ evaluate_query (some []) (some []) = [] :=
  ⟨(evaluate_query_total none (some [['a']])).1 rfl,
   (evaluate_query_total (some []) none).2.1 rfl,
   (evaluate_query_total (some []) (some [])).2.2 [] rfl rfl⟩

/-- C4: exactly the documents with strictly positive score appear in the
ranked result; when none has positive score the ranker signals "no
results" (the none outcome), and zero-score entries never appear. -/
theorem ranker_filter (results : Counters) :
    (rank_results results = none ↔ ∀ p ∈ results, p.2 ≤ 0)
    ∧ (∀ l, rank_results results = some l →
        ∀ p : Int × Int, p ∈ l ↔ p ∈ results ∧ 0 < p.2) := by
  have hiff : count_nonzero results = 0 ↔ ∀ p ∈ results, p.2 ≤ 0 := by
    simp [count_nonzero, List.length_eq_zero, List.filter_eq_nil_iff, not_lt]
  constructor
  · rw [rank_results]
    by_cases h : count_nonzero results = 0
    · rw [if_pos h]
      exact iff_of_true rfl (hiff.mp h)
    · rw [if_neg h]
      exact iff_of_false (by simp) (fun hall => h (hiff.mpr hall))
  · intro l hl p
    rw [rank_results] at hl
    by_cases h : count_nonzero results = 0
    · rw [if_pos h] at hl
      cases hl
    · rw [if_neg h] at hl
      have hle : (collect_nonzero results).mergeSort qsortLe = l :=
        Option.some.inj hl
      rw [← hle]
      simp [List.mem_mergeSort, collect_nonzero, List.mem_filter]

theorem rank_results_single :
    rank_results [((1 : Int), 2)] = some [((1 : Int), 2)] := by
  rw [rank_results, if_neg (by decide)]
  have hc : collect_nonzero [((1 : Int), 2)] = [((1 : Int), 2)] := by decide
  rw [hc, List.mergeSort_singleton]

/-- Witness for C4: document 1 with score 2 appears in its own ranking. -/
theorem ranker_filter_witness :
    ((1 : Int), (2 : Int)) ∈ [((1 : Int), (2 : Int))] ∧ (0 : Int) < 2 := by
  have h := (ranker_filter [((1 : Int), 2)]).2 [((1 : Int), 2)]
    rank_results_single ((1 : Int), 2)
  exact h.mp (by decide)

/-- C3 counterexample: the comparator orders by score only, so for the
ScoreMap listing document 3 before document 2, both with score 1, the
ranked output keeps document 3 first — not ascending document id. -/
theorem ranked_tiebreak_counterexample :
    rank_results [((3 : Int), 1), ((2 : Int), 1)]
        = some [((3 : Int), 1), ((2 : Int), 1)]
    ∧ ¬ scoreThenDocSorted [((3 : Int), 1), ((2 : Int), 1)] := by
  constructor
  · rw [rank_results, if_neg (by decide)]
    have hc : collect_nonzero [((3 : Int), 1), ((2 : Int), 1)]
        = [((3 : Int), 1), ((2 : Int), 1)] := by decide
    rw [hc]
    simp [List.mergeSort, List.splitInTwo, List.merge, qsortLe,
      cmp_docscore_desc]
  · unfold scoreThenDocSorted
    decide

/-- C3 amended: the ranked result is sorted by score non-increasing
(primary key score descending); no secondary document-id tie-break is
applied, since cmp_docscore_desc compares scores only. -/
theorem ranked_sorted_by_score (results : Counters) (l : List (Int × Int))
    (h : rank_results results = some l) :
    l.Pairwise (fun a b => b.2 ≤ a.2) := by
  rw [rank_results] at h
  by_cases hc : count_nonzero results = 0
  · rw [if_pos hc] at h
    cases h
  · rw [if_neg hc] at h
    have hle : (collect_nonzero results).mergeSort qsortLe = l :=
      Option.some.inj h
    have htrans : ∀ (a b c : Int × Int),
        qsortLe a b → qsortLe b c → qsortLe a c := by
      intro a b c hab hbc
      simp only [qsortLe, cmp_docscore_desc, decide_eq_true_eq] at *
      omega
    have htotal : ∀ (a b : Int × Int), qsortLe a b || qsortLe b a := by
      intro a b
      simp only [qsortLe, cmp_docscore_desc, Bool.or_eq_true,
        decide_eq_true_eq]
      omega
    have hs := List.sorted_mergeSort htrans htotal (collect_nonzero results)
    rw [hle] at hs
    refine hs.imp ?_
    intro a b hab
    simp only [qsortLe, cmp_docscore_desc, decide_eq_true_eq] at hab
    omega

/-- Witness for the amended C3 at a singleton ScoreMap. -/
theorem ranked_sorted_by_score_witness :
    List.Pairwise (fun a b : Int × Int => b.2 ≤ a.2) [((1 : Int), 2)] :=
  ranked_sorted_by_score [((1 : Int), 2)] [((1 : Int), 2)] rank_results_single

theorem splitOnP_structure (p : Char → Bool) :
    ∀ l : List Char,
      (l.dropWhile (fun a => !p a) = [] ∧ l.splitOnP p = [l])
      ∨ (∃ s rest, l.dropWhile (fun a => !p a) = s :: rest ∧ p s = true
          ∧ l.splitOnP p = (l.takeWhile (fun a => !p a)) :: rest.splitOnP p) := by
  intro l
  induction l with
  | nil => exact Or.inl ⟨rfl, List.splitOnP_nil p⟩
  | cons x xs ih =>
    by_cases hx : p x
    · refine Or.inr ⟨x, xs, ?_, hx, ?_⟩
      · rw [List.dropWhile_cons_of_neg (by simp [hx])]
      · rw [List.splitOnP_cons, if_pos hx,
          List.takeWhile_cons_of_neg (by simp [hx])]
    · rcases ih with ⟨hd, hs⟩ | ⟨s, rest, hd, hp, hs⟩
      · refine Or.inl ⟨?_, ?_⟩
        · rw [List.dropWhile_cons_of_pos (by simp [hx]), hd]
        · rw [List.splitOnP_cons, if_neg hx, hs]
          rfl
      · refine Or.inr ⟨s, rest, ?_, hp, ?_⟩
        · rw [List.dropWhile_cons_of_pos (by simp [hx]), hd]
        · rw [List.splitOnP_cons, if_neg hx, hs,
            List.takeWhile_cons_of_pos (by simp [hx])]
          rfl

theorem tokenizeRuns_eq_splitOnP (l : List Char) :
    tokenizeRuns l
      = (l.splitOnP (fun c => !isAlphaC c)).filter (fun t => !t.isEmpty) := by
  cases l with
  | nil => simp [tokenizeRuns, List.splitOnP_nil]
  | cons c rest =>
    by_cases hc : isAlphaC c
    · rw [tokenizeRuns, if_pos hc]
      have hnotnot : (fun a => !(fun c => !isAlphaC c) a) = isAlphaC := by
        funext a
        simp
      rcases splitOnP_structure (fun c => !isAlphaC c) (c :: rest)
        with ⟨hd, hs⟩ | ⟨s, srest, hd, hp, hs⟩
      · rw [hnotnot] at hd
        rw [List.dropWhile_cons_of_pos hc] at hd
        have htw : rest.takeWhile isAlphaC = rest := by
          have hsplit : rest.takeWhile isAlphaC ++ rest.dropWhile isAlphaC
              = rest := List.takeWhile_append_dropWhile isAlphaC rest
          rw [hd, List.append_nil] at hsplit
          exact hsplit
        rw [hs, hd, htw]
        simp [tokenizeRuns]
      · rw [hnotnot] at hd
        rw [List.dropWhile_cons_of_pos hc] at hd
        rw [hs, hnotnot, List.takeWhile_cons_of_pos hc]
        have hsa : isAlphaC s = false := by
          simpa using hp
        have hlen : srest.length < rest.length + 1 := by
          have h1 : (rest.dropWhile isAlphaC).length ≤ rest.length :=
            (List.dropWhile_sublist isAlphaC).length_le

          rw [hd] at h1
          simp at h1
          omega
        rw [hd]
        rw [tokenizeRuns, if_neg (by simp [hsa])]
        rw [tokenizeRuns_eq_splitOnP srest]
        simp
    · rw [tokenizeRuns, if_neg hc]
      rw [List.splitOnP_cons, if_pos (by simp [hc])]
      rw [tokenizeRuns_eq_splitOnP rest]
      simp
termination_by l.length

theorem hasAdjOps_iff (ws : List Word) :
    hasAdjOps ws = true ↔
      ∃ p ∈ ws.zip ws.tail, is_operator p.1 = true ∧ is_operator p.2 = true := by
  induction ws with
  | nil => simp [hasAdjOps]
  | cons a t ih =>
    cases t with
    | nil => simp [hasAdjOps]
    | cons b t2 =>
      rw [show hasAdjOps (a :: b :: t2)
            = ((is_operator a && is_operator b) || hasAdjOps (b :: t2)) from rfl]
      simp only [List.tail_cons, List.zip_cons_cons, List.mem_cons,
        Bool.or_eq_true, Bool.and_eq_true, ih]
      constructor
      · rintro (⟨h1, h2⟩ | ⟨p, hp, h1, h2⟩)
        · exact ⟨(a, b), Or.inl rfl, h1, h2⟩
        · exact ⟨p, Or.inr hp, h1, h2⟩
      · rintro ⟨p, hp | hp, h1, h2⟩
        · rw [hp] at h1 h2
          exact Or.inl ⟨h1, h2⟩
        · exact Or.inr ⟨p, hp, h1, h2⟩

/-- C5: a non-empty token sequence is rejected by validation (and the
query is then not evaluated) exactly when the first token is an
operator, the last token is an operator, or two consecutive tokens are
both operators; the empty sequence and every other sequence pass. -/
theorem validation_reject_iff (ws : List Word) :
    (validate_tokens ws = false ↔ ws ≠ [] ∧
      (is_operator (ws.headD []) = true ∨ is_operator (lastTok ws) = true
        ∨ ∃ p ∈ ws.zip ws.tail,
            is_operator p.1 = true ∧ is_operator p.2 = true))
    ∧ (∀ (idx : Index) (line : List Char),
        tokenizeLine line = some ws → validate_tokens ws = false →
        process_line idx line = none) := by
  constructor
  · cases ws with
    | nil => simp [validate_tokens]
    | cons w rest =>
      rw [show validate_tokens (w :: rest)
            = (if is_operator w then false
               else if is_operator (lastTok (w :: rest)) then false
               else !hasAdjOps (w :: rest)) from rfl]
      by_cases h1 : is_operator w
      · simp [h1]
      · by_cases h2 : is_operator (lastTok (w :: rest))
        · simp [h1, h2]
        · simp [h1, h2, hasAdjOps_iff]
  · intro idx line ht hv
    simp [process_line, tokenize_and_validate, ht, hv]

/-- Witness for C5: the line "and d" tokenizes to the sequence
[and, d], which is rejected and never evaluated. -/
theorem validation_reject_iff_witness :
    validate_tokens [wAnd, ['d']] = false
    ∧ process_line [] ['a', 'n', 'd', ' ', 'd'] = none := by
  have ht : tokenizeLine ['a', 'n', 'd', ' ', 'd'] = some [wAnd, ['d']] := by
    unfold tokenizeLine
    rw [if_neg (by decide), tokenizeRuns_eq_splitOnP]
    decide
  have h := validation_reject_iff [wAnd, ['d']]
  refine ⟨h.1.mpr (by decide), ?_⟩
  exact h.2 [] ['a', 'n', 'd', ' ', 'd'] ht (h.1.mpr (by decide))

theorem isSpaceC_not_alpha (c : Char) (h : isSpaceC c = true) :
    isAlphaC c = false := by
  simp only [isSpaceC, Bool.or_eq_true, decide_eq_true_eq] at h
  rcases h with ((((h | h) | h) | h) | h) | h <;> subst h <;> decide

theorem filter_splitOnP_eq_nil (p : Char → Bool) (m : List Char)
    (h : ∀ c ∈ m, p c = true) :
    (m.splitOnP p).filter (fun t => !t.isEmpty) = [] := by
  induction m with
  | nil => simp [List.splitOnP_nil]
  | cons c rest ih =>
    rw [List.splitOnP_cons, if_pos (h c (List.mem_cons_self c rest))]
    simp only [List.filter_cons]
    rw [ih (fun c' hc' => h c' (List.mem_cons_of_mem c hc'))]
    simp

/-- C6: tokenization rejects the whole line exactly when some character
is neither alphabetic nor whitespace (and then the query is not
evaluated); otherwise the tokens are the maximal alphabetic runs of the
lowercased line, and an all-whitespace (or empty) line gives the valid
empty token sequence. -/
theorem tokenization_spec (line : List Char) :
    (tokenizeLine line = none
        ↔ ∃ c ∈ line, isAlphaC c = false ∧ isSpaceC c = false)
    ∧ (∀ ts, tokenizeLine line = some ts → ts = tokensSpec line)
    ∧ ((∀ c ∈ line, isSpaceC c = true) → tokenizeLine line = some [])
    ∧ (∀ idx : Index, tokenizeLine line = none → process_line idx line = none) := by
  refine ⟨?_, ?_, ?_, ?_⟩
  · unfold tokenizeLine
    by_cases h : line.any (fun c => !isAlphaC c && !isSpaceC c)
    · rw [if_pos h]
      have h' : ∃ c ∈ line, isAlphaC c = false ∧ isSpaceC c = false := by
        simpa using h
      exact iff_of_true rfl h'
    · rw [if_neg h]
      have h' : ¬ ∃ c ∈ line, isAlphaC c = false ∧ isSpaceC c = false := by
        simpa using h
      exact iff_of_false (by simp) h'
  · intro ts hts
    unfold tokenizeLine at hts
    by_cases h : line.any (fun c => !isAlphaC c && !isSpaceC c)
    · rw [if_pos h] at hts
      cases hts
    · rw [if_neg h] at hts
      rw [← Option.some.inj hts, tokenizeRuns_eq_splitOnP]
      rfl
  · intro hall
    unfold tokenizeLine
    have hno : ¬ line.any (fun c => !isAlphaC c && !isSpaceC c) = true := by
      intro hany
      rcases List.any_eq_true.mp hany with ⟨c, hc, hbad⟩
      simp only [Bool.and_eq_true, Bool.not_eq_true'] at hbad
      simp [hall c hc] at hbad
    rw [if_neg hno, tokenizeRuns_eq_splitOnP]
    rw [filter_splitOnP_eq_nil]
    intro c' hc'
    rcases List.mem_map.mp hc' with ⟨c, hc, hfc⟩
    have hsp := hall c hc
    have hna := isSpaceC_not_alpha c hsp
    rw [← hfc]
    simp [hna]
  · intro idx hnone
    simp [process_line, tokenize_and_validate, hnone]

/-- Witness for C6: a line with a bad character is rejected; the line
"Hi " tokenizes to the lowercased run [hi]. -/
theorem tokenization_spec_witness :
    tokenizeLine ['c', '@'] = none
    ∧ tokenizeLine ['H', 'i', ' '] = some (tokensSpec ['H', 'i', ' '])
    ∧ tokensSpec ['H', 'i', ' '] = [['h', 'i']] := by
  have ht : tokenizeLine ['H', 'i', ' ']
      = some (tokenizeRuns (lowerLine ['H', 'i', ' '])) := by
    unfold tokenizeLine
    rw [if_neg (by decide)]
  refine ⟨?_, ?_, by decide⟩
  · exact (tokenization_spec ['c', '@']).1.mpr ⟨'@', by decide, by decide, by decide⟩
  · rw [ht, (tokenization_spec ['H', 'i', ' ']).2.1 _ ht]

theorem dropWhile_head_false (p : Char → Bool) :
    ∀ (l : List Char) (s : Char) (t : List Char),
      l.dropWhile p = s :: t → p s = false := by
  intro l
  induction l with
  | nil => intro s t h; cases h
  | cons x xs ih =>
    intro s t h
    by_cases hx : p x
    · rw [List.dropWhile_cons_of_pos hx] at h
      exact ih s t h
    · rw [List.dropWhile_cons_of_neg hx] at h
      cases h
      simpa using hx

theorem two_mul_tokenizeRuns_length (l : List Char) :
    2 * (tokenizeRuns l).length ≤ l.length + 1
    ∧ (∀ c rest, l = c :: rest → isAlphaC c = false →
        2 * (tokenizeRuns l).length ≤ l.length) := by
  cases l with
  | nil =>
    refine ⟨by simp [tokenizeRuns], ?_⟩
    intro c rest h
    cases h
  | cons c rest =>
    by_cases hc : isAlphaC c
    · refine ⟨?_, ?_⟩
      · rw [tokenizeRuns, if_pos hc]
        cases hd : rest.dropWhile isAlphaC with
        | nil =>
          rw [show tokenizeRuns ([] : List Char) = [] from by simp [tokenizeRuns]]
          simp only [List.length_cons, List.length_nil]
          omega
        | cons s srest =>
          have hsa : isAlphaC s = false := dropWhile_head_false isAlphaC rest s srest hd
          have hlen : srest.length + 1 ≤ rest.length := by
            have h1 : (rest.dropWhile isAlphaC).length ≤ rest.length :=
              (List.dropWhile_sublist isAlphaC).length_le
            rw [hd] at h1
            simpa using h1
          have hrec := (two_mul_tokenizeRuns_length (s :: srest)).2 s srest rfl hsa
          simp only [List.length_cons]
          simp only [List.length_cons] at hrec
          omega
      · intro c' rest' he hfa
        have hc' : c' = c := (List.cons.inj he.symm).1
        rw [hc', hc] at hfa
        cases hfa
    · have hrest := (two_mul_tokenizeRuns_length rest).1
      refine ⟨?_, ?_⟩
      · rw [tokenizeRuns, if_neg hc]
        simp only [List.length_cons]
        omega
      · intro c' rest' he hfa
        rw [tokenizeRuns, if_neg hc]
        simp only [List.length_cons]
        omega
termination_by l.length
decreasing_by
  all_goals simp only [List.length_cons]
  all_goals omega

/-- C9: a line of only alphabetic and whitespace characters yields at
most len/2 + 1 tokens, so the token array of len/2 + 1 slots allocated
by tokenize_and_validate is never written out of bounds. -/
theorem token_array_bound (line : List Char)
    (h : ∀ c ∈ line, isAlphaC c = true ∨ isSpaceC c = true) :
    ∀ ts, tokenizeLine line = some ts → ts.length ≤ line.length / 2 + 1 := by
  intro ts hts
  have hno : ¬ line.any (fun c => !isAlphaC c && !isSpaceC c) = true := by
    intro hany
    rcases List.any_eq_true.mp hany with ⟨c, hc, hbad⟩
    simp only [Bool.and_eq_true, Bool.not_eq_true'] at hbad
    rcases h c hc with h1 | h1
    · simp [h1] at hbad
    · simp [h1] at hbad
  unfold tokenizeLine at hts
  rw [if_neg hno] at hts
  have hts' := Option.some.inj hts
  have hb := (two_mul_tokenizeRuns_length (lowerLine line)).1
  have hlen : (lowerLine line).length = line.length := by simp [lowerLine]
  rw [← hts']
  omega

/-- Witness for C9: the line "hi" yields one token, and 1 ≤ 2/2 + 1. -/
theorem token_array_bound_witness :
    ([['h', 'i']] : List Word).length ≤ (['h', 'i'] : List Char).length / 2 + 1 := by
  apply token_array_bound ['h', 'i'] (by decide)
  unfold tokenizeLine
  rw [if_neg (by decide), tokenizeRuns_eq_splitOnP]
  decide

end Querier
